import Mathlib

/-!
Verification of the ephemeral file store and the base64 input-decoding layer
of the MCP Skills Server (`src/server.py`).

The development shallowly embeds the relevant pieces of the source:

* the decoder `clean_base64` (server.py lines 67-101), together with a model
  of Python's `base64.b64encode` / `base64.b64decode` on byte lists;
* the blob store / metadata ledger (`store_file`, `get_file_metadata`,
  `get_file_path`, `save_metadata`, `load_metadata`, server.py lines 48-140);
* the expiry sweeper `cleanup_expired_files` (server.py lines 143-154);
* the download endpoint `endpoint_download_file` (server.py lines 593-609)
  and the upload tool `tool_upload_file` (server.py lines 409-422).

Modelling conventions:

* Bytes are `List Nat` with every element `< 256`.
* Timestamps: the source stores `datetime.now().isoformat()` strings and
  compares them after `datetime.fromisoformat`.  ISO-8601 rendering of a
  time instant is injective and order-preserving, so instants are modelled
  as `Nat` (seconds); the stored "timestamp string" corresponds one-to-one
  to that `Nat`.  The two adjacent `datetime.now()` calls inside
  `store_file` (lines 121-122) are modelled as the same instant.
* The filesystem (`FILES_DIR`) and the in-memory dict `FILE_METADATA` are
  association lists with Python-dict semantics (unique keys, in-place
  update, insertion order).
* `uuid.uuid4()` is nondeterministic, so the generated id is an explicit
  argument of `store_file`.
* The persisted side-file `.metadata.json` holds either a parsed JSON
  document (`FileContent.jsonDoc`) or unparseable text
  (`FileContent.invalid`); `json.dumps`/`json.loads` round-tripping of a
  string/number object tree is modelled by the `JVal` tree itself.
* Error strings are abbreviated (the source interpolates observed bytes
  into its German messages; the messages' exact text is irrelevant to the
  claims).
-/

/-- Bytes are modelled as lists of naturals; genuine byte strings have all
elements below 256. -/
abbrev Bytes := List Nat

/-- The standard base64 alphabet used by Python's `base64.b64encode` /
`b64decode`. -/
def b64Alphabet : List Char :=
  "ABCDEFGHIJKLMNOPQRSTUVWXYZabcdefghijklmnopqrstuvwxyz0123456789+/".data

/-- Position of a character in a list (first occurrence). -/
def posIn (c : Char) : List Char → Option Nat
  | [] => none
  | d :: rest => if d = c then some 0 else (posIn c rest).map (· + 1)

/-- Index of a character in the base64 alphabet (`none` for non-alphabet
characters, including the padding character). -/
def b64Index (c : Char) : Option Nat := posIn c b64Alphabet

/-- The alphabet character for a 6-bit group. -/
def b64CharOf (n : Nat) : Char := b64Alphabet.getD n 'A'

/-- Model of Python's `base64.b64encode` on a byte list: three bytes become
four alphabet characters; a trailing byte (resp. byte pair) becomes two
(resp. three) characters plus `=` padding. -/
def b64encode : Bytes → List Char
  | [] => []
  | [a] => [b64CharOf (a / 4), b64CharOf (a % 4 * 16), '=', '=']
  | [a, b] => [b64CharOf (a / 4), b64CharOf (a % 4 * 16 + b / 16),
               b64CharOf (b % 16 * 4), '=']
  | a :: b :: c :: rest =>
      b64CharOf (a / 4) :: b64CharOf (a % 4 * 16 + b / 16) ::
      b64CharOf (b % 16 * 4 + c / 64) :: b64CharOf (c % 64) :: b64encode rest

/-- Model of Python's `base64.b64decode` (`binascii.a2b_base64`) on input
that has already been cleaned to the alphabet plus `=`: characters are
consumed in groups of four, `=` is accepted only as trailing padding, and a
leftover group of fewer than four characters is the `Incorrect padding`
error. -/
def b64decodePy : List Char → Except String Bytes
  | [] => .ok []
  | c1 :: c2 :: c3 :: c4 :: rest =>
    match b64Index c1, b64Index c2 with
    | some n1, some n2 =>
      if c3 = '=' then
        if c4 = '=' ∧ rest = [] then .ok [n1 * 4 + n2 / 16]
        else .error "Invalid base64-encoded string"
      else
        match b64Index c3 with
        | some n3 =>
          if c4 = '=' then
            if rest = [] then .ok [n1 * 4 + n2 / 16, n2 % 16 * 16 + n3 / 4]
            else .error "Invalid base64-encoded string"
          else
            match b64Index c4 with
            | some n4 =>
              match b64decodePy rest with
              | .ok tail =>
                  .ok ((n1 * 4 + n2 / 16) :: (n2 % 16 * 16 + n3 / 4) ::
                       (n3 % 4 * 64 + n4) :: tail)
              | .error e => .error e
            | none => .error "Invalid base64-encoded string"
        | none => .error "Invalid base64-encoded string"
    | _, _ => .error "Invalid base64-encoded string"
  | _ => .error "Incorrect padding"

/-- Does one list lead with another?  (Model of `str.startswith` /
`List.isPrefixOf`, defined locally.) -/
def leadsWith : List Char → List Char → Bool
  | [], _ => true
  | _ :: _, [] => false
  | a :: as, b :: bs => a == b && leadsWith as bs

/-- Substring test (model of Python's `in` on strings). -/
def containsSub (pat : List Char) : List Char → Bool
  | [] => leadsWith pat []
  | c :: rest => leadsWith pat (c :: rest) || containsSub pat rest

/-- ASCII lowercasing, the fragment of `str.lower` relevant here (all inputs
the claims exercise are ASCII). -/
def asciiLower (c : Char) : Char :=
  if 65 ≤ c.toNat ∧ c.toNat ≤ 90 then Char.ofNat (c.toNat + 32) else c

/-- The characters kept by the cleanup regex `[^A-Za-z0-9+/=]` of
server.py line 85. -/
def keepChar (c : Char) : Bool :=
  (65 ≤ c.toNat && c.toNat ≤ 90) || (97 ≤ c.toNat && c.toNat ≤ 122) ||
  (48 ≤ c.toNat && c.toNat ≤ 57) || c.toNat == 43 || c.toNat == 47 ||
  c.toNat == 61

/-- `re.sub(r'[^A-Za-z0-9+/=]', '', ...)` of server.py line 85. -/
def filterB64 (t : List Char) : List Char := t.filter keepChar

/-- The whitespace characters of Python's `str.split()` (ASCII fragment). -/
def isPySpace (c : Char) : Bool :=
  c == ' ' || c == '\t' || c == '\n' || c == '\r' ||
  c == Char.ofNat 11 || c == Char.ofNat 12

/-- `''.join(s.split())` of server.py line 84: remove all whitespace. -/
def removeWS (t : List Char) : List Char := t.filter (fun c => !(isPySpace c))

/-- Character membership test (model of Python's `in` on a string). -/
def memB (c : Char) : List Char → Bool
  | [] => false
  | d :: rest => d == c || memB c rest

/-- Everything after the first comma (model of `s.split(',', 1)[1]`; the
caller guards on the comma being present). -/
def afterComma : List Char → List Char
  | [] => []
  | c :: rest => if c = ',' then rest else afterComma rest

/-- The data-URL stripping step of server.py lines 80-81: if the text
contains a comma and starts with `data:`, drop everything up to and
including the first comma. -/
def stripDataUrl (t : List Char) : List Char :=
  if memB ',' t && leadsWith "data:".data t then afterComma t else t

/-- Conjunction of the character-level facts needed about base64 output
characters: they survive the cleanup filter, are not whitespace, and are
none of the characters that the placeholder test, the data-URL detection or
the comma split react to. -/
def goodChar (c : Char) : Bool :=
  keepChar c && !(c == '<') && !(c == ':') && !(c == ',') &&
  !(asciiLower c == '-') && !(isPySpace c)

/-- The placeholder marker scanned for on server.py line 76. -/
def placeholderMark : List Char := "base64-encoded".data

/-- The 4-byte PDF magic `b'%PDF'`. -/
def pdfMagic : Bytes := [37, 80, 68, 70]

/-- The padding correction of server.py lines 88-90: append `=` until the
length is a multiple of four. -/
def padB64 (t : List Char) : List Char :=
  if t.length % 4 = 0 then t else t ++ List.replicate (4 - t.length % 4) '='

/-- Model of `clean_base64` (server.py lines 67-101): reject empty input;
reject placeholder input (leading `<` or the marker `base64-encoded` in the
lowercased text); strip a data-URL prefix; remove whitespace; drop every
character outside the base64 alphabet; re-pad to a multiple of four;
base64-decode; finally require the 4-byte PDF magic on the decoded bytes.
The `filename` parameter of the source is only used for logging and is
omitted. -/
def clean_base64 (content_b64 : List Char) : Except String Bytes :=
  if content_b64 = [] then .error "Leerer Base64-String"
  else if content_b64.head? = some '<' ∨
          containsSub placeholderMark (content_b64.map asciiLower) = true then
    .error "Platzhalter statt Base64-Daten erhalten"
  else
    match b64decodePy (padB64 (filterB64 (removeWS (stripDataUrl content_b64)))) with
    | .error e => .error e
    | .ok decoded =>
        if decoded.take 4 = pdfMagic then .ok decoded
        else .error "Keine gueltigen PDF-Daten"

/-- Lookup in an association list with Python-dict semantics (keys are
unique in reachable states; lookup returns the first match). -/
def lookupL {α : Type} : List (String × α) → String → Option α
  | [], _ => none
  | p :: rest, k => if p.1 = k then some p.2 else lookupL rest k

/-- `d[k] = v` on a Python dict: update in place if the key is present,
append otherwise. -/
def insertL {α : Type} : List (String × α) → String → α → List (String × α)
  | [], k, v => [(k, v)]
  | p :: rest, k, v => if p.1 = k then (k, v) :: rest else p :: insertL rest k v

/-- `d.pop(k)` / file deletion: remove the (unique) entry with the key. -/
def eraseL {α : Type} : List (String × α) → String → List (String × α)
  | [], _ => []
  | p :: rest, k => if p.1 = k then rest else p :: eraseL rest k

/-- Key-presence test (`k in d` / `path.exists()`). -/
def containsL {α : Type} (l : List (String × α)) (k : String) : Bool :=
  (lookupL l k).isSome

/-- One descriptor of the metadata ledger, the dict built by `store_file`
(server.py lines 115-124).  `created_at` and `expires_at` are time instants
(see the module comment on timestamps). -/
structure Meta where
  id : String
  original_filename : String
  stored_filename : String
  mime_type : String
  size : Nat
  created_at : Nat
  expires_at : Nat
  download_url : String
deriving DecidableEq, Repr

/-- A JSON value as produced by `json.dumps` on the ledger (string and
number leaves, object nodes). -/
inductive JVal where
  | jstr (s : String)
  | jnum (n : Nat)
  | jobj (fields : List (String × JVal))

/-- Contents of the side-file `.metadata.json`: either a parsed JSON
document or text on which `json.loads` raises. -/
inductive FileContent where
  | jsonDoc (j : JVal)
  | invalid

/-- Serialization of one descriptor (the dict of server.py lines 115-124)
to JSON. -/
def metaToJson (m : Meta) : JVal :=
  .jobj [("id", .jstr m.id),
         ("original_filename", .jstr m.original_filename),
         ("stored_filename", .jstr m.stored_filename),
         ("mime_type", .jstr m.mime_type),
         ("size", .jnum m.size),
         ("created_at", .jnum m.created_at),
         ("expires_at", .jnum m.expires_at),
         ("download_url", .jstr m.download_url)]

/-- Reading one descriptor back from its JSON form. -/
def jsonToMeta : JVal → Option Meta
  | .jobj [("id", .jstr i), ("original_filename", .jstr ofn),
           ("stored_filename", .jstr sfn), ("mime_type", .jstr mt),
           ("size", .jnum sz), ("created_at", .jnum ca),
           ("expires_at", .jnum ea), ("download_url", .jstr du)] =>
      some ⟨i, ofn, sfn, mt, sz, ca, ea, du⟩
  | _ => none

/-- Serialization of the whole ledger (`json.dumps(FILE_METADATA)`,
server.py line 60). -/
def ledgerToJson (l : List (String × Meta)) : JVal :=
  .jobj (l.map (fun p => (p.1, metaToJson p.2)))

/-- Reading the whole ledger back from its JSON form. -/
def jsonToLedger : JVal → Option (List (String × Meta))
  | .jobj fields =>
      fields.foldr
        (fun p acc =>
          match jsonToMeta p.2, acc with
          | some m, some l => some ((p.1, m) :: l)
          | _, _ => none)
        (some [])
  | _ => none

/-- The whole mutable state of the server: the in-memory dict
`FILE_METADATA`, the files on disk under `FILES_DIR`, the contents of the
side-file `.metadata.json` (`none` = missing), and a count of
`save_metadata` calls (recording how often the ledger was persisted). -/
structure ServerState where
  ledger : List (String × Meta)
  disk : List (String × Bytes)
  sideFile : Option FileContent
  saves : Nat

/-- `save_metadata` (server.py lines 59-60): rewrite the side-file with the
serialized ledger. -/
def save_metadata (s : ServerState) : ServerState :=
  { s with sideFile := some (.jsonDoc (ledgerToJson s.ledger)),
           saves := s.saves + 1 }

/-- `load_metadata` (server.py lines 51-57), as run at startup (line 62)
where `FILE_METADATA` is `{}`: a missing side-file leaves the ledger empty,
text that fails to parse as JSON is caught by the bare `except` and yields
`{}`.  A parsed document is taken as the ledger (the source assigns the raw
parsed object; the typed reading is `jsonToLedger`, with non-ledger-shaped
documents — which the server itself never writes — also modelled as `{}`). -/
def load_metadata : Option FileContent → List (String × Meta)
  | none => []
  | some .invalid => []
  | some (.jsonDoc j) => (jsonToLedger j).getD []

/-- `timedelta(hours=24)` in seconds (server.py line 122). -/
def TTL_SECONDS : Nat := 24 * 60 * 60

/-- Default of the `PUBLIC_BASE_URL` environment variable (server.py
line 44). -/
def PUBLIC_BASE_URL : String := "http://localhost:8001/files"

/-- Index of the last `.` in a character list (`str.rfind('.')`). -/
def rfindDot : List Char → Option Nat
  | [] => none
  | c :: rest =>
    match rfindDot rest with
    | some i => some (i + 1)
    | none => if c = '.' then some 0 else none

/-- `Path(filename).suffix` (server.py line 109): the part of the name from
its last dot on, provided that dot is neither the first character nor the
last. -/
def pathSuffix (filename : String) : String :=
  let cs := filename.data
  match rfindDot cs with
  | some i => if 0 < i ∧ i + 1 < cs.length then String.mk (cs.drop i) else ""
  | none => ""

/-- `store_file` (server.py lines 106-128).  The generated `uuid.uuid4()`
is the explicit `file_id` argument; `now` is the instant of the call (used
for both `created_at` and `expires_at`, see the module comment).  Writes
the bytes to disk, registers the descriptor in the ledger, persists the
ledger, and returns the descriptor.  Note: there is no collision check of
any kind — an existing file or ledger entry under the same name is
overwritten. -/
def store_file (s : ServerState) (content : Bytes) (filename : String)
    (mime_type : String) (now : Nat) (file_id : String) :
    ServerState × Meta :=
  let stored_filename := file_id ++ pathSuffix filename
  let m : Meta :=
    { id := file_id
      original_filename := filename
      stored_filename := stored_filename
      mime_type := mime_type
      size := content.length
      created_at := now
      expires_at := now + TTL_SECONDS
      download_url := PUBLIC_BASE_URL ++ "/" ++ file_id ++ "/" ++ filename }
  let s1 := { s with disk := insertL s.disk stored_filename content }
  let s2 := { s1 with ledger := insertL s1.ledger file_id m }
  (save_metadata s2, m)

/-- `get_file_metadata` (server.py lines 131-132): pure ledger lookup. -/
def get_file_metadata (s : ServerState) (file_id : String) : Option Meta :=
  lookupL s.ledger file_id

/-- `get_file_path` (server.py lines 135-140): resolve the descriptor, then
return the stored path only if the backing file exists. -/
def get_file_path (s : ServerState) (file_id : String) : Option String :=
  match get_file_metadata s file_id with
  | none => none
  | some m =>
      if containsL s.disk m.stored_filename then some m.stored_filename
      else none

/-- Opening and reading the backing bytes of a stored file (the read
performed by `FileResponse` on the path from `get_file_path`). -/
def openFile (s : ServerState) (file_id : String) : Option Bytes :=
  (get_file_path s file_id).bind (lookupL s.disk)

/-- The body of the sweep loop (server.py lines 147-152):
`FILE_METADATA.pop(file_id, None)`, then delete the backing file if it
exists (a missing file is tolerated). -/
def sweepStep (st : ServerState) (file_id : String) : ServerState :=
  match lookupL st.ledger file_id with
  | none => st
  | some m =>
      { st with
          ledger := eraseL st.ledger file_id,
          disk := if containsL st.disk m.stored_filename then
                    eraseL st.disk m.stored_filename
                  else st.disk }

/-- `cleanup_expired_files` (server.py lines 143-154): collect the ids with
`now > expires_at` (strictly), remove each from the ledger and delete its
backing bytes, and persist the ledger once at the end — only if anything
was removed. -/
def cleanup_expired_files (now : Nat) (s : ServerState) : ServerState :=
  let expired :=
    (s.ledger.filter (fun p => p.2.expires_at < now)).map Prod.fst
  let s1 := expired.foldl sweepStep s
  if expired = [] then s1 else save_metadata s1

/-- Result of the download endpoint: one of the two 404 JSON bodies, or a
`FileResponse` carrying the bytes, the `Content-Disposition` filename and
the media type. -/
inductive DownloadResult where
  | notFoundMeta
  | notFoundFile
  | fileResponse (content : Bytes) (filename : String) (media_type : String)
deriving DecidableEq, Repr

/-- `endpoint_download_file` (server.py lines 593-609).  Access is gated on
ledger presence and backing-file existence only; the function does not take
the current time at all, so no comparison with `expires_at` ever happens at
fetch time. -/
def endpoint_download_file (s : ServerState) (file_id : String)
    (_requested_filename : String) : DownloadResult :=
  match get_file_metadata s file_id with
  | none => .notFoundMeta
  | some m =>
    match get_file_path s file_id with
    | none => .notFoundFile
    | some path =>
        .fileResponse ((lookupL s.disk path).getD [])
          m.original_filename m.mime_type

/-- The structured JSON result of `tool_upload_file`. -/
structure UploadResult where
  success : Bool
  download_url : Option String
  filename : Option String
  size : Option Nat
  message : String
deriving DecidableEq, Repr

/-- `tool_upload_file` (server.py lines 409-422): decode the base64 payload
with `clean_base64` and store the result; any exception is caught and
returned as a structured failure without touching any state. -/
def tool_upload_file (s : ServerState) (content_base64 : List Char)
    (filename : String) (mime_type : String) (now : Nat) (file_id : String) :
    ServerState × UploadResult :=
  match clean_base64 content_base64 with
  | .error e =>
      (s, { success := false, download_url := none, filename := none,
            size := none, message := "Fehler: " ++ e })
  | .ok content =>
      let r := store_file s content filename mime_type now file_id
      (r.1, { success := true, download_url := some r.2.download_url,
              filename := some filename, size := some r.2.size,
              message := "Datei gespeichert. Download: " ++ r.2.download_url })

/-- Ledger sanity invariant holding in every reachable state: ledger keys
are distinct (Python dict), stored filenames of distinct entries are
distinct (ids are distinct dot-free uuids and the stored name is
`id + extension`), and disk paths are distinct (a filesystem). -/
def GoodState (s : ServerState) : Prop :=
  (s.ledger.map Prod.fst).Nodup ∧
  (s.ledger.map (fun p => p.2.stored_filename)).Nodup ∧
  (s.disk.map Prod.fst).Nodup

/-- The freshly started server: empty ledger, empty files directory, no
side-file, nothing persisted yet. -/
def emptyState : ServerState := ⟨[], [], none, 0⟩

/-- A sample descriptor used to evaluate the operations on concrete
states: stored at time 0, so `expires_at = TTL_SECONDS = 86400`. -/
def exMeta1 : Meta :=
  ⟨"e1", "a.pdf", "e1.pdf", "application/pdf", 1, 0, 86400, "u1"⟩

/-- A sample state holding `exMeta1` and its backing bytes. -/
def exState1 : ServerState := ⟨[("e1", exMeta1)], [("e1.pdf", [37])], none, 0⟩

/-- Induction principle following the 3-byte chunking of `b64encode`. -/
theorem chunk3Induction {P : Bytes → Prop} (h0 : P []) (h1 : ∀ a, P [a])
    (h2 : ∀ a b, P [a, b])
    (h3 : ∀ a b c rest, P rest → P (a :: b :: c :: rest)) : ∀ l, P l
  | [] => h0
  | [a] => h1 a
  | [a, b] => h2 a b
  | a :: b :: c :: rest => h3 a b c rest (chunk3Induction h0 h1 h2 h3 rest)

/-- Decoding an alphabet character recovers its 6-bit value (checked for
all 64 alphabet positions). -/
theorem b64Index_b64CharOf_fin :
    ∀ n : Fin 64, b64Index (b64CharOf n.val) = some n.val := by decide

/-- Decoding an alphabet character recovers its 6-bit value. -/
theorem b64Index_b64CharOf {n : Nat} (h : n < 64) :
    b64Index (b64CharOf n) = some n :=
  b64Index_b64CharOf_fin ⟨n, h⟩

/-- The alphabet length. -/
theorem b64Alphabet_length : b64Alphabet.length = 64 := by decide

/-- All 64 alphabet characters satisfy `goodChar`. -/
theorem goodChar_b64CharOf_fin :
    ∀ n : Fin 64, goodChar (b64CharOf n.val) = true := by decide

/-- Every character `b64CharOf` can produce satisfies `goodChar` (out of
range indices give the default `'A'`, which is also good). -/
theorem goodChar_b64CharOf (n : Nat) : goodChar (b64CharOf n) = true := by
  by_cases h : n < 64
  · exact goodChar_b64CharOf_fin ⟨n, h⟩
  · have : b64CharOf n = 'A' := by
      unfold b64CharOf
      exact List.getD_eq_default _ _ (by rw [b64Alphabet_length]; omega)
    rw [this]; decide

/-- The padding character satisfies `goodChar`. -/
theorem goodChar_pad : goodChar '=' = true := by decide

/-- No alphabet character is the padding character. -/
theorem b64CharOf_ne_pad (n : Nat) : b64CharOf n ≠ '=' := by
  by_cases h : n < 64
  · intro he
    have h2 := b64Index_b64CharOf h
    rw [he] at h2
    have h3 : b64Index '=' = none := by decide
    rw [h3] at h2
    exact Option.noConfusion h2
  · have : b64CharOf n = 'A' := by
      unfold b64CharOf
      exact List.getD_eq_default _ _ (by rw [b64Alphabet_length]; omega)
    rw [this]; decide

/-- Every character of a base64 encoding satisfies `goodChar`. -/
theorem b64encode_good :
    ∀ l : Bytes, ∀ c ∈ b64encode l, goodChar c = true := by
  refine chunk3Induction ?_ ?_ ?_ ?_
  · intro c hc; simp [b64encode] at hc
  · intro a c hc
    simp only [b64encode, List.mem_cons, List.not_mem_nil, or_false] at hc
    rcases hc with h | h | h | h <;> subst h <;>
      first
        | exact goodChar_b64CharOf _
        | exact goodChar_pad
  · intro a b c hc
    simp only [b64encode, List.mem_cons, List.not_mem_nil, or_false] at hc
    rcases hc with h | h | h | h <;> subst h <;>
      first
        | exact goodChar_b64CharOf _
        | exact goodChar_pad
  · intro a b c rest ih x hx
    simp only [b64encode, List.mem_cons] at hx
    rcases hx with h | h | h | h | h
    · subst h; exact goodChar_b64CharOf _
    · subst h; exact goodChar_b64CharOf _
    · subst h; exact goodChar_b64CharOf _
    · subst h; exact goodChar_b64CharOf _
    · exact ih x h

/-- A base64 encoding always has length a multiple of four. -/
theorem b64encode_len_mod4 : ∀ l : Bytes, (b64encode l).length % 4 = 0 := by
  refine chunk3Induction ?_ ?_ ?_ ?_
  · simp [b64encode]
  · intro a; simp [b64encode]
  · intro a b; simp [b64encode]
  · intro a b c rest ih
    simp only [b64encode, List.length_cons]
    omega

/-- Decoding inverts encoding on genuine byte lists. -/
theorem b64decode_encode :
    ∀ l : Bytes, (∀ x ∈ l, x < 256) → b64decodePy (b64encode l) = .ok l := by
  refine chunk3Induction ?_ ?_ ?_ ?_
  · intro _; rfl
  · intro a h
    have ha : a < 256 := h a (by simp)
    have h1 : a / 4 < 64 := by omega
    have h2 : a % 4 * 16 < 64 := by omega
    simp only [b64encode, b64decodePy, b64Index_b64CharOf h1,
      b64Index_b64CharOf h2]
    simp
    all_goals omega
  · intro a b h
    have ha : a < 256 := h a (by simp)
    have hb : b < 256 := h b (by simp)
    have h1 : a / 4 < 64 := by omega
    have h2 : a % 4 * 16 + b / 16 < 64 := by omega
    have h3 : b % 16 * 4 < 64 := by omega
    simp only [b64encode, b64decodePy, b64Index_b64CharOf h1,
      b64Index_b64CharOf h2]
    rw [if_neg (b64CharOf_ne_pad _)]
    simp only [b64Index_b64CharOf h3]
    simp
    constructor
    all_goals omega
  · intro a b c rest ih h
    have ha : a < 256 := h a (by simp)
    have hb : b < 256 := h b (by simp)
    have hc : c < 256 := h c (by simp)
    have hrest : ∀ x ∈ rest, x < 256 := fun x hx => h x (by simp [hx])
    have h1 : a / 4 < 64 := by omega
    have h2 : a % 4 * 16 + b / 16 < 64 := by omega
    have h3 : b % 16 * 4 + c / 64 < 64 := by omega
    have h4 : c % 64 < 64 := by omega
    simp only [b64encode, b64decodePy, b64Index_b64CharOf h1,
      b64Index_b64CharOf h2]
    rw [if_neg (b64CharOf_ne_pad _)]
    simp only [b64Index_b64CharOf h3]
    rw [if_neg (b64CharOf_ne_pad _)]
    simp only [b64Index_b64CharOf h4, ih hrest]
    simp
    refine ⟨?_, ?_, ?_⟩
    all_goals omega

/-- A character kept by the cleanup regex is not whitespace. -/
theorem keepChar_not_space (c : Char) (h : keepChar c = true) :
    isPySpace c = false := by
  by_cases hs : isPySpace c = true
  · exfalso
    simp only [isPySpace, Bool.or_eq_true, beq_iff_eq] at hs
    rcases hs with ((((h' | h') | h') | h') | h') | h' <;> subst h' <;>
      exact absurd h (by decide)
  · simpa using hs

/-- The whitespace-removal step is absorbed by the non-alphabet filter
(whitespace is itself outside the kept alphabet). -/
theorem filterB64_removeWS (t : List Char) :
    filterB64 (removeWS t) = filterB64 t := by
  unfold filterB64 removeWS
  rw [List.filter_filter]
  have hfun : (fun c => keepChar c && !(isPySpace c)) = keepChar := by
    funext c
    cases h : keepChar c
    · simp
    · simp [keepChar_not_space c h]
  rw [hfun]

/-- `leadsWith` characterised by list structure. -/
theorem leadsWith_iff_ex :
    ∀ p t : List Char, leadsWith p t = true ↔ ∃ r, t = p ++ r := by
  intro p
  induction p with
  | nil => intro t; simp [leadsWith]
  | cons a as ih =>
    intro t
    cases t with
    | nil => simp [leadsWith]
    | cons b bs =>
      simp only [leadsWith, Bool.and_eq_true, beq_iff_eq, ih bs,
        List.cons_append, List.cons.injEq]
      constructor
      · rintro ⟨rfl, r, rfl⟩; exact ⟨r, rfl, rfl⟩
      · rintro ⟨r, rfl, rfl⟩; exact ⟨rfl, r, rfl⟩

/-- A list leads with any of its own initial segments. -/
theorem leadsWith_self_append (p r : List Char) :
    leadsWith p (p ++ r) = true :=
  (leadsWith_iff_ex p (p ++ r)).mpr ⟨r, rfl⟩

/-- `memB` distributes over append. -/
theorem memB_append (c : Char) (a b : List Char) :
    memB c (a ++ b) = (memB c a || memB c b) := by
  induction a with
  | nil => simp [memB]
  | cons d rest ih => simp [memB, ih, Bool.or_assoc]

/-- Skipping up to the first comma of `pre ++ ',' :: rest` yields `rest`
when `pre` is comma-free. -/
theorem afterComma_append (pre rest : List Char)
    (h : memB ',' pre = false) :
    afterComma (pre ++ ',' :: rest) = rest := by
  induction pre with
  | nil => simp [afterComma]
  | cons c p ih =>
    simp only [memB, Bool.or_eq_false_iff, beq_eq_false_iff_ne, ne_eq] at h
    simp only [List.cons_append, afterComma, if_neg h.1]
    exact ih h.2

/-- A pattern containing a character absent from the text is not a
substring of the text. -/
theorem containsSub_false_of (pat t : List Char) (c : Char)
    (hc : memB c pat = true) (ht : memB c t = false) :
    containsSub pat t = false := by
  induction t with
  | nil =>
    cases pat with
    | nil => simp [memB] at hc
    | cons a as => rfl
  | cons d rest ih =>
    have ht' : memB c rest = false := by
      simp only [memB, Bool.or_eq_false_iff] at ht
      exact ht.2
    have h1 : leadsWith pat (d :: rest) = false := by
      cases h : leadsWith pat (d :: rest)
      · rfl
      · exfalso
        obtain ⟨r, hr⟩ := (leadsWith_iff_ex _ _).mp h
        have h2 : memB c (d :: rest) = true := by
          rw [hr, memB_append, hc, Bool.true_or]
        rw [h2] at ht
        exact Bool.noConfusion ht
    simp only [containsSub, h1, ih ht', Bool.or_false]

/-- A list whose first four elements are known decomposes into those four
elements and a tail. -/
theorem take_four_eq {l : Bytes} {w x y z : Nat}
    (h : l.take 4 = [w, x, y, z]) : ∃ r, l = w :: x :: y :: z :: r := by
  match l with
  | [] => simp at h
  | [a] => simp at h
  | [a, b] => simp at h
  | [a, b, c] => simp at h
  | a :: b :: c :: d :: r =>
    have h4 : (a :: b :: c :: d :: r).take 4 = [a, b, c, d] := rfl
    rw [h4] at h
    simp only [List.cons.injEq, and_true] at h
    obtain ⟨rfl, rfl, rfl, rfl⟩ := h
    exact ⟨r, rfl⟩

/-- Claim C1 (corrected).  The source decoder `clean_base64` validates the
4-byte PDF magic on the decoded bytes, so the round-trip holds only for
byte sequences beginning with `%PDF` (see `C1_counterexample` for the
general claim failing).  For such bytes it holds for every corruption the
claim lists, as long as the corruption does not itself trip the placeholder
rejection: the corrupted text is `b64encode b` with up to the two possible
trailing `=` padding characters dropped (`hk`, `hpayload`) and arbitrary
whitespace and non-alphabet noise interspersed (`hpayload` states exactly
that the kept characters of `txt` are the de-padded encoding), optionally
prefixed by an intact `data:<mime>;base64,` data URL whose mime type
contains no comma; the whole text must not begin with `<` and must not
contain the placeholder marker `base64-encoded`.  Then `clean_base64`
returns exactly the original bytes. -/
theorem C1_clean_base64_round_trip
    (b : Bytes) (mime txt full : List Char) (k : Nat) (usePre : Bool)
    (hbytes : ∀ x ∈ b, x < 256)
    (hmagic : b.take 4 = pdfMagic)
    (hk : k ≤ 2)
    (hpayload : filterB64 txt ++ List.replicate k '=' = b64encode b)
    (hmime : memB ',' mime = false)
    (hfull : full = if usePre = true then
        "data:".data ++ (mime ++ (";base64,".data ++ txt)) else txt)
    (hhead : ¬ full.head? = some '<')
    (hmark : containsSub placeholderMark (full.map asciiLower) = false) :
    clean_base64 full = .ok b := by
  have hmagic' : b.take 4 = [37, 80, 68, 70] := hmagic
  obtain ⟨brest, rfl⟩ := take_four_eq hmagic'
  have hhead9 : ∃ etail,
      b64encode (37 :: 80 :: 68 :: 70 :: brest) = 'J' :: etail := ⟨_, rfl⟩
  obtain ⟨etail, hE⟩ := hhead9
  have hPcons : ∃ ptail, filterB64 txt = 'J' :: ptail := by
    cases hP : filterB64 txt with
    | nil =>
      exfalso
      rw [hP, List.nil_append, hE] at hpayload
      cases k with
      | zero => simp at hpayload
      | succ k' =>
        rw [List.replicate_succ] at hpayload
        injection hpayload with h1 h2
        exact absurd h1 (by decide)
    | cons c ptail =>
      rw [hP, List.cons_append, hE] at hpayload
      injection hpayload with h1 h2
      subst h1
      exact ⟨ptail, rfl⟩
  have hfne : full ≠ [] := by
    by_cases hu : usePre = true
    · rw [hfull, if_pos hu]; simp
    · rw [hfull, if_neg hu]
      intro h0
      obtain ⟨ptail, hP⟩ := hPcons
      rw [h0] at hP
      simp [filterB64] at hP
  have hstrip : stripDataUrl full = txt := by
    by_cases hu : usePre = true
    · rw [hfull, if_pos hu]
      unfold stripDataUrl
      have hmem : memB ','
          ("data:".data ++ (mime ++ (";base64,".data ++ txt))) = true := by
        rw [memB_append, memB_append, memB_append]
        have hc : memB ',' ";base64,".data = true := by decide
        rw [hc]
        simp
      have hlead : leadsWith "data:".data
          ("data:".data ++ (mime ++ (";base64,".data ++ txt))) = true :=
        leadsWith_self_append _ _
      rw [hmem, hlead]
      simp only [Bool.and_self, if_true]
      have hshape : "data:".data ++ (mime ++ (";base64,".data ++ txt)) =
          ("data:".data ++ (mime ++ ";base64".data)) ++ (',' :: txt) := by
        have hsplit : (";base64,".data : List Char) =
            ";base64".data ++ [','] := by decide
        rw [hsplit]
        simp [List.append_assoc]
      rw [hshape]
      apply afterComma_append
      rw [memB_append, memB_append]
      have h1 : memB ',' "data:".data = false := by decide
      have h2 : memB ',' ";base64".data = false := by decide
      rw [h1, h2, hmime]
      rfl
    · rw [hfull, if_neg hu]
      unfold stripDataUrl
      have hlead : leadsWith "data:".data txt = false := by
        cases h : leadsWith "data:".data txt
        · rfl
        · exfalso
          obtain ⟨r, hr⟩ := (leadsWith_iff_ex _ _).mp h
          obtain ⟨ptail, hP⟩ := hPcons
          rw [hr] at hP
          have hsplit2 : filterB64 ("data:".data ++ r) =
              "data".data ++ filterB64 r := by
            unfold filterB64
            rw [List.filter_append]
            have hlit : List.filter keepChar "data:".data = "data".data := by
              decide
            rw [hlit]
          rw [hsplit2] at hP
          rw [show ("data".data : List Char) = 'd' :: "ata".data from rfl,
            List.cons_append] at hP
          injection hP with h1 h2
          exact absurd h1 (by decide)
      rw [hlead, Bool.and_false]
      simp
  have hpad : padB64 (filterB64 txt) =
      b64encode (37 :: 80 :: 68 :: 70 :: brest) := by
    have hL4 : (b64encode (37 :: 80 :: 68 :: 70 :: brest)).length % 4 = 0 :=
      b64encode_len_mod4 _
    have hlen : (filterB64 txt).length + k =
        (b64encode (37 :: 80 :: 68 :: 70 :: brest)).length := by
      rw [← hpayload, List.length_append, List.length_replicate]
    unfold padB64
    by_cases hk0 : k = 0
    · subst hk0
      rw [List.replicate_zero, List.append_nil] at hpayload
      rw [hpayload, if_pos hL4]
    · have hk1 : 1 ≤ k := Nat.one_le_iff_ne_zero.mpr hk0
      have hmod : ¬ (filterB64 txt).length % 4 = 0 := by omega
      rw [if_neg hmod]
      have h4k : 4 - (filterB64 txt).length % 4 = k := by omega
      rw [h4k, hpayload]
  have hor : ¬ (full.head? = some '<' ∨
      containsSub placeholderMark (full.map asciiLower) = true) := by
    rintro (h | h)
    · exact hhead h
    · rw [hmark] at h
      exact Bool.noConfusion h
  unfold clean_base64
  rw [if_neg hfne, if_neg hor, hstrip, filterB64_removeWS, hpad,
    b64decode_encode (37 :: 80 :: 68 :: 70 :: brest) hbytes]
  show (if (37 :: 80 :: 68 :: 70 :: brest).take 4 = pdfMagic then
      Except.ok (37 :: 80 :: 68 :: 70 :: brest)
    else Except.error "Keine gueltigen PDF-Daten") =
      Except.ok (37 :: 80 :: 68 :: 70 :: brest)
  rw [if_pos hmagic]

/-- Claim C1, as stated, is false on the code: the byte sequence `hello`
(`[104, 101, 108, 108, 111]`) does not begin with `%PDF`, and decoding its
exact, uncorrupted base64 encoding (`aGVsbG8=`) is rejected by the PDF
magic check of `clean_base64` (server.py lines 97-99) instead of returning
the original bytes. -/
theorem C1_counterexample :
    b64encode [104, 101, 108, 108, 111] = "aGVsbG8=".data ∧
    clean_base64 "aGVsbG8=".data = .error "Keine gueltigen PDF-Daten" := by
  constructor
  · decide
  · rfl

/-- Witness for `C1_clean_base64_round_trip`: the bytes `%PDF`, encoded to
`JVBERg==`, corrupted by dropping both padding characters, inserting a
space, and prepending a data-URL prefix, still decode to `%PDF`. -/
theorem C1_witness :
    clean_base64 "data:application/pdf;base64,JVB ERg".data =
      .ok [37, 80, 68, 70] :=
  C1_clean_base64_round_trip [37, 80, 68, 70] "application/pdf".data
    "JVB ERg".data "data:application/pdf;base64,JVB ERg".data 2 true
    (by decide) (by decide) (by decide) (by decide) (by decide) (by decide)
    (by decide) (by decide)

section AssocLemmas

variable {α : Type}

/-- Inserting then looking up the same key yields the inserted value. -/
theorem lookupL_insertL_self (l : List (String × α)) (k : String) (v : α) :
    lookupL (insertL l k v) k = some v := by
  induction l with
  | nil => simp [insertL, lookupL]
  | cons p rest ih =>
    by_cases h : p.1 = k
    · simp [insertL, h, lookupL]
    · simp [insertL, h, lookupL, ih]

/-- Insertion does not affect lookups of other keys. -/
theorem lookupL_insertL_ne (l : List (String × α)) (k k' : String) (v : α)
    (h : k' ≠ k) : lookupL (insertL l k v) k' = lookupL l k' := by
  induction l with
  | nil =>
    show (if k = k' then some v else lookupL [] k') = lookupL [] k'
    rw [if_neg (fun he => h he.symm)]
  | cons p rest ih =>
    by_cases hp : p.1 = k
    · rw [insertL, if_pos hp]
      show (if k = k' then some v else lookupL rest k') =
        (if p.1 = k' then some p.2 else lookupL rest k')
      have hp' : ¬ p.1 = k' := by rw [hp]; exact fun he => h he.symm
      rw [if_neg (fun he => h he.symm), if_neg hp']
    · rw [insertL, if_neg hp]
      show (if p.1 = k' then some p.2 else lookupL (insertL rest k v) k') =
        (if p.1 = k' then some p.2 else lookupL rest k')
      rw [ih]

/-- Erasure does not affect lookups of other keys. -/
theorem lookupL_eraseL_ne (l : List (String × α)) (k k' : String)
    (h : k' ≠ k) : lookupL (eraseL l k) k' = lookupL l k' := by
  induction l with
  | nil => rfl
  | cons p rest ih =>
    by_cases hp : p.1 = k
    · rw [eraseL, if_pos hp]
      show lookupL rest k' = (if p.1 = k' then some p.2 else lookupL rest k')
      have hp' : ¬ p.1 = k' := by rw [hp]; exact fun he => h he.symm
      rw [if_neg hp']
    · rw [eraseL, if_neg hp]
      show (if p.1 = k' then some p.2 else lookupL (eraseL rest k) k') =
        (if p.1 = k' then some p.2 else lookupL rest k')
      rw [ih]

/-- An absent key looks up to `none`. -/
theorem lookupL_none_iff (l : List (String × α)) (k : String) :
    lookupL l k = none ↔ k ∉ l.map Prod.fst := by
  induction l with
  | nil => simp [lookupL]
  | cons p rest ih =>
    rw [List.map_cons, List.mem_cons]
    by_cases hp : p.1 = k
    · rw [lookupL, if_pos hp]
      simp [hp]
    · rw [lookupL, if_neg hp, ih]
      constructor
      · rintro hnm (h1 | h2)
        · exact hp h1.symm
        · exact hnm h2
      · intro hno hmem
        exact hno (Or.inr hmem)

/-- A successful lookup is list membership. -/
theorem lookupL_mem (l : List (String × α)) (k : String) (v : α)
    (h : lookupL l k = some v) : (k, v) ∈ l := by
  induction l with
  | nil => simp [lookupL] at h
  | cons p rest ih =>
    obtain ⟨a, b⟩ := p
    by_cases hp : a = k
    · rw [lookupL, if_pos hp] at h
      injection h with h'
      subst hp
      subst h'
      exact List.mem_cons_self _ _
    · rw [lookupL, if_neg hp] at h
      exact List.mem_cons_of_mem _ (ih h)

/-- Under distinct keys, membership determines lookup. -/
theorem lookupL_of_mem_nodup (l : List (String × α)) (k : String) (v : α)
    (hnd : (l.map Prod.fst).Nodup) (hm : (k, v) ∈ l) :
    lookupL l k = some v := by
  induction l with
  | nil => simp at hm
  | cons p rest ih =>
    obtain ⟨a, b⟩ := p
    rw [List.map_cons, List.nodup_cons] at hnd
    rcases List.mem_cons.mp hm with he | hm'
    · injection he with h1 h2
      subst h1
      subst h2
      simp [lookupL]
    · have hak : a ≠ k := by
        intro hak
        subst hak
        exact hnd.1 (List.mem_map.mpr ⟨(a, v), hm', rfl⟩)
      rw [lookupL, if_neg hak]
      exact ih hnd.2 hm'

/-- Erasing an absent key is the identity. -/
theorem eraseL_of_none (l : List (String × α)) (k : String)
    (h : lookupL l k = none) : eraseL l k = l := by
  induction l with
  | nil => rfl
  | cons p rest ih =>
    by_cases hp : p.1 = k
    · rw [lookupL, if_pos hp] at h
      exact absurd h (by simp)
    · rw [lookupL, if_neg hp] at h
      rw [eraseL, if_neg hp, ih h]

/-- Entries of an erasure are entries of the original list. -/
theorem mem_of_mem_eraseL (l : List (String × α)) (k : String)
    (x : String × α) (h : x ∈ eraseL l k) : x ∈ l := by
  induction l with
  | nil => simp [eraseL] at h
  | cons p rest ih =>
    by_cases hp : p.1 = k
    · rw [eraseL, if_pos hp] at h
      exact List.mem_cons_of_mem _ h
    · rw [eraseL, if_neg hp] at h
      rcases List.mem_cons.mp h with he | h'
      · exact he ▸ List.mem_cons_self _ _
      · exact List.mem_cons_of_mem _ (ih h')

/-- A `none` lookup stays `none` after any erasure. -/
theorem lookupL_eraseL_none (l : List (String × α)) (k k' : String)
    (h : lookupL l k' = none) : lookupL (eraseL l k) k' = none := by
  cases h' : lookupL (eraseL l k) k' with
  | none => rfl
  | some v =>
    exfalso
    have hm := mem_of_mem_eraseL l k _ (lookupL_mem _ _ _ h')
    have := (lookupL_none_iff l k').mp h
    exact this (List.mem_map.mpr ⟨(k', v), hm, rfl⟩)

/-- Mapping an erasure is a sublist of mapping the original. -/
theorem map_eraseL_sublist {β : Type} (l : List (String × α)) (k : String)
    (f : String × α → β) : ((eraseL l k).map f).Sublist (l.map f) := by
  induction l with
  | nil => simp [eraseL]
  | cons p rest ih =>
    by_cases hp : p.1 = k
    · rw [eraseL, if_pos hp, List.map_cons]
      exact List.sublist_cons_self _ _
    · rw [eraseL, if_neg hp, List.map_cons, List.map_cons]
      exact ih.cons₂ _

/-- Distinctness of a mapped association list survives erasure. -/
theorem nodup_map_eraseL {β : Type} (l : List (String × α)) (k : String)
    (f : String × α → β) (h : (l.map f).Nodup) :
    ((eraseL l k).map f).Nodup :=
  (map_eraseL_sublist l k f).nodup h

/-- Under distinct keys, erasing a key makes its lookup `none`. -/
theorem lookupL_eraseL_self (l : List (String × α)) (k : String)
    (hnd : (l.map Prod.fst).Nodup) : lookupL (eraseL l k) k = none := by
  induction l with
  | nil => rfl
  | cons p rest ih =>
    rw [List.map_cons, List.nodup_cons] at hnd
    by_cases hp : p.1 = k
    · rw [eraseL, if_pos hp]
      rw [lookupL_none_iff]
      exact hp ▸ hnd.1
    · rw [eraseL, if_neg hp, lookupL, if_neg hp]
      exact ih hnd.2

/-- Under distinct keys, a successful lookup in an erasure was already
successful before the erasure. -/
theorem lookupL_eraseL_some (l : List (String × α)) (k k' : String) (v : α)
    (hnd : (l.map Prod.fst).Nodup) (h : lookupL (eraseL l k) k' = some v) :
    lookupL l k' = some v := by
  by_cases hk : k' = k
  · subst hk
    rw [lookupL_eraseL_self l k' hnd] at h
    exact Option.noConfusion h
  · rw [lookupL_eraseL_ne l k k' hk] at h
    exact h

/-- Inserting a fresh key appends the binding. -/
theorem insertL_of_none (l : List (String × α)) (k : String) (v : α)
    (h : lookupL l k = none) : insertL l k v = l ++ [(k, v)] := by
  induction l with
  | nil => rfl
  | cons p rest ih =>
    by_cases hp : p.1 = k
    · rw [lookupL, if_pos hp] at h
      exact absurd h (by simp)
    · rw [lookupL, if_neg hp] at h
      rw [insertL, if_neg hp, ih h, List.cons_append]

/-- Inserting an already-present key keeps the key multiset of the list. -/
theorem map_fst_insertL_of_some (l : List (String × α)) (k : String)
    (v v' : α) (h : lookupL l k = some v') :
    (insertL l k v).map Prod.fst = l.map Prod.fst := by
  induction l with
  | nil => simp [lookupL] at h
  | cons p rest ih =>
    by_cases hp : p.1 = k
    · rw [insertL, if_pos hp, List.map_cons, List.map_cons, hp]
    · rw [lookupL, if_neg hp] at h
      rw [insertL, if_neg hp, List.map_cons, List.map_cons, ih h]

/-- Under distinct keys, two entries mapping to the same image under an
injective-on-the-list map are the same entry. -/
theorem nodup_map_inj {β : Type} (l : List (String × α))
    (f : String × α → β) (hnd : (l.map f).Nodup) (x y : String × α)
    (hx : x ∈ l) (hy : y ∈ l) (hf : f x = f y) : x = y := by
  induction l with
  | nil => simp at hx
  | cons p rest ih =>
    rw [List.map_cons, List.nodup_cons] at hnd
    rcases List.mem_cons.mp hx with hex | hx' <;>
      rcases List.mem_cons.mp hy with hey | hy'
    · rw [hex, hey]
    · exfalso
      subst hex
      exact hnd.1 (hf ▸ List.mem_map.mpr ⟨y, hy', rfl⟩)
    · exfalso
      subst hey
      exact hnd.1 (hf ▸ List.mem_map.mpr ⟨x, hx', rfl⟩)
    · exact ih hnd.2 hx' hy'

end AssocLemmas

/-- One sweep iteration on the ledger is exactly an erasure. -/
theorem sweepStep_ledger (st : ServerState) (fid : String) :
    (sweepStep st fid).ledger = eraseL st.ledger fid := by
  unfold sweepStep
  cases h : lookupL st.ledger fid with
  | none => exact (eraseL_of_none _ _ h).symm
  | some m => rfl

/-- One sweep iteration on the disk: erase the backing file of the entry
being removed (a missing file — `path.exists()` false — is a no-op, which
coincides with erasing an absent key). -/
theorem sweepStep_disk (st : ServerState) (fid : String) :
    (sweepStep st fid).disk =
      match lookupL st.ledger fid with
      | none => st.disk
      | some m => eraseL st.disk m.stored_filename := by
  unfold sweepStep
  cases h : lookupL st.ledger fid with
  | none => rfl
  | some m =>
    show (if containsL st.disk m.stored_filename then
        eraseL st.disk m.stored_filename else st.disk) =
      eraseL st.disk m.stored_filename
    by_cases hc : containsL st.disk m.stored_filename
    · rw [if_pos hc]
    · rw [if_neg hc]
      have hn : lookupL st.disk m.stored_filename = none := by
        unfold containsL at hc
        exact Option.not_isSome_iff_eq_none.mp hc
      exact (eraseL_of_none _ _ hn).symm

/-- Sweep iterations do not touch the side-file or the persist counter. -/
theorem sweepStep_misc (st : ServerState) (fid : String) :
    (sweepStep st fid).sideFile = st.sideFile ∧
    (sweepStep st fid).saves = st.saves := by
  unfold sweepStep
  cases lookupL st.ledger fid with
  | none => exact ⟨rfl, rfl⟩
  | some m => exact ⟨rfl, rfl⟩

/-- Sweep iterations preserve the state sanity invariant. -/
theorem sweepStep_good (st : ServerState) (fid : String)
    (h : GoodState st) : GoodState (sweepStep st fid) := by
  obtain ⟨h1, h2, h3⟩ := h
  refine ⟨?_, ?_, ?_⟩
  · rw [sweepStep_ledger]
    exact nodup_map_eraseL _ _ _ h1
  · rw [sweepStep_ledger]
    exact nodup_map_eraseL _ _ _ h2
  · rw [sweepStep_disk]
    cases lookupL st.ledger fid with
    | none => exact h3
    | some m => exact nodup_map_eraseL _ _ _ h3

/-- The whole sweep loop does not touch the side-file or the persist
counter. -/
theorem foldl_sweepStep_misc (fids : List String) :
    ∀ st : ServerState,
      ((fids.foldl sweepStep st).sideFile = st.sideFile ∧
       (fids.foldl sweepStep st).saves = st.saves) := by
  induction fids with
  | nil => intro st; exact ⟨rfl, rfl⟩
  | cons f rest ih =>
    intro st
    have h1 := sweepStep_misc st f
    have h2 := ih (sweepStep st f)
    exact ⟨h2.1.trans h1.1, h2.2.trans h1.2⟩

/-- The sweep loop preserves the state sanity invariant. -/
theorem foldl_sweepStep_good (fids : List String) :
    ∀ st : ServerState, GoodState st → GoodState (fids.foldl sweepStep st) := by
  induction fids with
  | nil => intro st h; exact h
  | cons f rest ih => intro st h; exact ih _ (sweepStep_good st f h)

/-- An id absent from the ledger stays absent through the sweep loop. -/
theorem foldl_ledger_none (fids : List String) :
    ∀ st : ServerState, ∀ k : String, lookupL st.ledger k = none →
      lookupL ((fids.foldl sweepStep st)).ledger k = none := by
  induction fids with
  | nil => intro st k h; exact h
  | cons f rest ih =>
    intro st k h
    refine ih _ k ?_
    rw [sweepStep_ledger]
    exact lookupL_eraseL_none _ _ _ h

/-- Ids not in the sweep list keep their ledger entry (with the same
descriptor). -/
theorem foldl_ledger_not_mem (fids : List String) :
    ∀ st : ServerState, ∀ k : String, k ∉ fids →
      lookupL ((fids.foldl sweepStep st)).ledger k = lookupL st.ledger k := by
  induction fids with
  | nil => intro st k _; rfl
  | cons f rest ih =>
    intro st k h
    have hk : k ≠ f := fun he => h (he ▸ List.mem_cons_self _ _)
    have hr : k ∉ rest := fun hm => h (List.mem_cons_of_mem _ hm)
    rw [List.foldl_cons, ih _ k hr, sweepStep_ledger,
      lookupL_eraseL_ne _ _ _ hk]

/-- Ids in the sweep list have no ledger entry after the loop. -/
theorem foldl_ledger_mem (fids : List String) :
    ∀ st : ServerState, ∀ k : String, (st.ledger.map Prod.fst).Nodup →
      k ∈ fids → lookupL ((fids.foldl sweepStep st)).ledger k = none := by
  induction fids with
  | nil => intro st k _ h; simp at h
  | cons f rest ih =>
    intro st k hnd h
    by_cases hk : k = f
    · subst hk
      refine foldl_ledger_none rest _ k ?_
      rw [sweepStep_ledger]
      exact lookupL_eraseL_self _ _ hnd
    · have hr : k ∈ rest := by
        rcases List.mem_cons.mp h with he | hm
        · exact absurd he hk
        · exact hm
      refine ih _ k ?_ hr
      rw [sweepStep_ledger]
      exact nodup_map_eraseL _ _ _ hnd

/-- A missing disk path stays missing through the sweep loop. -/
theorem foldl_disk_none_pres (fids : List String) :
    ∀ st : ServerState, ∀ n : String, lookupL st.disk n = none →
      lookupL ((fids.foldl sweepStep st)).disk n = none := by
  induction fids with
  | nil => intro st n h; exact h
  | cons f rest ih =>
    intro st n h
    refine ih _ n ?_
    rw [sweepStep_disk]
    cases lookupL st.ledger f with
    | none => exact h
    | some m => exact lookupL_eraseL_none _ _ _ h

/-- The sweep loop deletes the backing bytes of every swept entry. -/
theorem foldl_disk_none (fids : List String) :
    ∀ st : ServerState, ∀ fid : String, ∀ m : Meta,
      (st.ledger.map Prod.fst).Nodup → (st.disk.map Prod.fst).Nodup →
      fid ∈ fids → lookupL st.ledger fid = some m →
      lookupL ((fids.foldl sweepStep st)).disk m.stored_filename = none := by
  induction fids with
  | nil => intro st fid m _ _ h _; simp at h
  | cons f rest ih =>
    intro st fid m hnd hdisk hmem hlook
    by_cases hk : fid = f
    · subst hk
      refine foldl_disk_none_pres rest _ _ ?_
      rw [sweepStep_disk, hlook]
      exact lookupL_eraseL_self _ _ hdisk
    · have hr : fid ∈ rest := by
        rcases List.mem_cons.mp hmem with he | hm
        · exact absurd he hk
        · exact hm
      refine ih _ fid m ?_ ?_ hr ?_
      · rw [sweepStep_ledger]
        exact nodup_map_eraseL _ _ _ hnd
      · rw [sweepStep_disk]
        cases lookupL st.ledger f with
        | none => exact hdisk
        | some m' => exact nodup_map_eraseL _ _ _ hdisk
      · rw [sweepStep_ledger]
        rw [lookupL_eraseL_ne _ _ _ hk]
        exact hlook

/-- The sweep loop leaves alone every disk path not owned by a swept
entry. -/
theorem foldl_disk_pres (fids : List String) :
    ∀ st : ServerState, ∀ n : String, (st.ledger.map Prod.fst).Nodup →
      (∀ f ∈ fids, ∀ mf : Meta, lookupL st.ledger f = some mf →
        mf.stored_filename ≠ n) →
      lookupL ((fids.foldl sweepStep st)).disk n = lookupL st.disk n := by
  induction fids with
  | nil => intro st n _ _; rfl
  | cons f rest ih =>
    intro st n hnd h
    have hstep : (sweepStep st f).disk = st.disk ∨
        ∃ mf, lookupL st.ledger f = some mf ∧
          (sweepStep st f).disk = eraseL st.disk mf.stored_filename := by
      rw [sweepStep_disk]
      cases hl : lookupL st.ledger f with
      | none => exact Or.inl rfl
      | some mf => exact Or.inr ⟨mf, rfl, rfl⟩
    have hih := ih (sweepStep st f) n
      (by rw [sweepStep_ledger]; exact nodup_map_eraseL _ _ _ hnd)
      (by
        intro f' hf' mf' hlf'
        rw [sweepStep_ledger] at hlf'
        exact h f' (List.mem_cons_of_mem _ hf') mf'
          (lookupL_eraseL_some _ _ _ _ hnd hlf'))
    rw [List.foldl_cons, hih]
    rcases hstep with h1 | ⟨mf, hlf, h2⟩
    · rw [h1]
    · rw [h2]
      exact lookupL_eraseL_ne _ _ _
        (fun he => h f (List.mem_cons_self _ _) mf hlf he.symm)

/-- Membership in the expired-id list computed by the sweep, characterised
by ledger lookup (under distinct keys). -/
theorem mem_expired_iff (l : List (String × Meta)) (now : Nat) (fid : String)
    (hnd : (l.map Prod.fst).Nodup) :
    fid ∈ (l.filter (fun p => p.2.expires_at < now)).map Prod.fst ↔
      ∃ m, lookupL l fid = some m ∧ m.expires_at < now := by
  induction l with
  | nil => simp [lookupL]
  | cons p rest ih =>
    rw [List.map_cons, List.nodup_cons] at hnd
    by_cases hp : p.2.expires_at < now
    · rw [List.filter_cons_of_pos (by simpa using hp), List.map_cons]
      by_cases hf : p.1 = fid
      · constructor
        · intro _
          exact ⟨p.2, by rw [lookupL, if_pos hf], hp⟩
        · intro _
          exact hf ▸ List.mem_cons_self _ _
      · rw [List.mem_cons]
        rw [show lookupL (p :: rest) fid = lookupL rest fid from by
          rw [lookupL, if_neg hf]]
        rw [← ih hnd.2]
        constructor
        · rintro (he | hm)
          · exact absurd he.symm hf
          · exact hm
        · intro hm
          exact Or.inr hm
    · rw [List.filter_cons_of_neg (by simpa using hp)]
      by_cases hf : p.1 = fid
      · rw [ih hnd.2]
        rw [show lookupL (p :: rest) fid = some p.2 from by
          rw [lookupL, if_pos hf]]
        constructor
        · rintro ⟨m, hm, hexp⟩
          exfalso
          have hmem := lookupL_mem rest fid m hm
          exact hnd.1 (hf ▸ List.mem_map.mpr ⟨(fid, m), hmem, rfl⟩)
        · rintro ⟨m, hm, hexp⟩
          injection hm with hm'
          exact absurd (hm' ▸ hexp) hp
      · rw [ih hnd.2]
        rw [show lookupL (p :: rest) fid = lookupL rest fid from by
          rw [lookupL, if_neg hf]]

/-- The ledger after a sweep is the ledger after the sweep loop (the final
conditional persist does not touch the ledger). -/
theorem cleanup_ledger_eq (now : Nat) (s : ServerState) :
    (cleanup_expired_files now s).ledger =
      (((s.ledger.filter (fun p => p.2.expires_at < now)).map
        Prod.fst).foldl sweepStep s).ledger := by
  simp only [cleanup_expired_files]
  split
  · rfl
  · rfl

/-- The disk after a sweep is the disk after the sweep loop. -/
theorem cleanup_disk_eq (now : Nat) (s : ServerState) :
    (cleanup_expired_files now s).disk =
      (((s.ledger.filter (fun p => p.2.expires_at < now)).map
        Prod.fst).foldl sweepStep s).disk := by
  simp only [cleanup_expired_files]
  split
  · rfl
  · rfl

/-- Sweep on the ledger, characterised: an entry survives exactly when it
is not strictly expired. -/
theorem cleanup_ledger_lookup (now : Nat) (s : ServerState) (fid : String)
    (hnd : (s.ledger.map Prod.fst).Nodup) :
    lookupL (cleanup_expired_files now s).ledger fid =
      (lookupL s.ledger fid).bind
        (fun m => if m.expires_at < now then none else some m) := by
  rw [cleanup_ledger_eq]
  by_cases hmem : fid ∈
      (s.ledger.filter (fun p => p.2.expires_at < now)).map Prod.fst
  · rw [foldl_ledger_mem _ _ _ hnd hmem]
    obtain ⟨m, hm, hexp⟩ := (mem_expired_iff _ _ _ hnd).mp hmem
    rw [hm]
    show none = if m.expires_at < now then none else some m
    rw [if_pos hexp]
  · rw [foldl_ledger_not_mem _ _ _ hmem]
    cases hl : lookupL s.ledger fid with
    | none => rfl
    | some m =>
      show some m = if m.expires_at < now then none else some m
      by_cases hexp : m.expires_at < now
      · exact absurd ((mem_expired_iff _ _ _ hnd).mpr ⟨m, hl, hexp⟩) hmem
      · rw [if_neg hexp]

/-- A sweep persists the ledger exactly once when it removed something and
not at all otherwise. -/
theorem cleanup_saves_eq (now : Nat) (s : ServerState) :
    (cleanup_expired_files now s).saves = s.saves +
      (if s.ledger.filter (fun p => p.2.expires_at < now) = [] then 0
       else 1) := by
  simp only [cleanup_expired_files]
  have hs := (foldl_sweepStep_misc
    ((s.ledger.filter (fun p => p.2.expires_at < now)).map Prod.fst) s).2
  by_cases he : s.ledger.filter (fun p => p.2.expires_at < now) = []
  · rw [if_pos (by rw [he]; rfl), hs, if_pos he]
    omega
  · have he' : (s.ledger.filter
        (fun p => p.2.expires_at < now)).map Prod.fst ≠ [] := by
      intro h0
      exact he (List.map_eq_nil_iff.mp h0)
    rw [if_neg he']
    show (List.foldl sweepStep s _).saves + 1 = _
    rw [hs, if_neg he]

/-- When a sweep removed something, the side-file afterwards holds the
serialization of the swept ledger. -/
theorem cleanup_sideFile_eq (now : Nat) (s : ServerState)
    (h : s.ledger.filter (fun p => p.2.expires_at < now) ≠ []) :
    (cleanup_expired_files now s).sideFile =
      some (.jsonDoc (ledgerToJson (cleanup_expired_files now s).ledger)) := by
  simp only [cleanup_expired_files]
  have he' : (s.ledger.filter
      (fun p => p.2.expires_at < now)).map Prod.fst ≠ [] := by
    intro h0
    exact h (List.map_eq_nil_iff.mp h0)
  rw [if_neg he']
  rfl

/-- A sweep deletes the backing bytes of every strictly expired entry. -/
theorem cleanup_disk_expired (now : Nat) (s : ServerState) (fid : String)
    (m : Meta) (hnd : (s.ledger.map Prod.fst).Nodup)
    (hdisk : (s.disk.map Prod.fst).Nodup)
    (hlook : lookupL s.ledger fid = some m) (hexp : m.expires_at < now) :
    lookupL (cleanup_expired_files now s).disk m.stored_filename = none := by
  rw [cleanup_disk_eq]
  exact foldl_disk_none _ _ _ _ hnd hdisk
    ((mem_expired_iff _ _ _ hnd).mpr ⟨m, hlook, hexp⟩) hlook

/-- A sweep leaves alone every disk path not owned by a strictly expired
entry. -/
theorem cleanup_disk_pres (now : Nat) (s : ServerState) (n : String)
    (hnd : (s.ledger.map Prod.fst).Nodup)
    (h : ∀ f : String, ∀ mf : Meta, lookupL s.ledger f = some mf →
      mf.expires_at < now → mf.stored_filename ≠ n) :
    lookupL (cleanup_expired_files now s).disk n = lookupL s.disk n := by
  rw [cleanup_disk_eq]
  refine foldl_disk_pres _ _ _ hnd ?_
  intro f hf mf hlf
  obtain ⟨m', hm', hexp'⟩ := (mem_expired_iff _ _ _ hnd).mp hf
  rw [hlf] at hm'
  injection hm' with he
  exact h f mf hlf (he ▸ hexp')

/-- The descriptor built by `store_file`, spelled out. -/
theorem store_file_meta (s : ServerState) (c : Bytes) (fn mt : String)
    (now : Nat) (fid : String) :
    (store_file s c fn mt now fid).2 =
      { id := fid, original_filename := fn,
        stored_filename := fid ++ pathSuffix fn, mime_type := mt,
        size := c.length, created_at := now,
        expires_at := now + TTL_SECONDS,
        download_url := PUBLIC_BASE_URL ++ "/" ++ fid ++ "/" ++ fn } := rfl

/-- `store_file` updates the ledger by (re)binding the id to the new
descriptor. -/
theorem store_file_ledger (s : ServerState) (c : Bytes) (fn mt : String)
    (now : Nat) (fid : String) :
    (store_file s c fn mt now fid).1.ledger =
      insertL s.ledger fid (store_file s c fn mt now fid).2 := rfl

/-- `store_file` writes the content under the stored name, overwriting any
previous file there. -/
theorem store_file_disk (s : ServerState) (c : Bytes) (fn mt : String)
    (now : Nat) (fid : String) :
    (store_file s c fn mt now fid).1.disk =
      insertL s.disk (fid ++ pathSuffix fn) c := rfl

/-- `store_file` persists the ledger exactly once. -/
theorem store_file_saves (s : ServerState) (c : Bytes) (fn mt : String)
    (now : Nat) (fid : String) :
    (store_file s c fn mt now fid).1.saves = s.saves + 1 := rfl

/-- Assembling `openFile` from a resolved descriptor and present backing
bytes. -/
theorem openFile_eq (s : ServerState) (fid : String) (m : Meta) (b : Bytes)
    (h1 : get_file_metadata s fid = some m)
    (h2 : lookupL s.disk m.stored_filename = some b) :
    openFile s fid = some b := by
  unfold openFile get_file_path
  rw [h1]
  show (if containsL s.disk m.stored_filename then some m.stored_filename
    else none).bind (lookupL s.disk) = some b
  unfold containsL
  rw [h2]
  show (some m.stored_filename).bind (lookupL s.disk) = some b
  show lookupL s.disk m.stored_filename = some b
  exact h2

/-- Storing under a fresh id and fresh stored name preserves the state
sanity invariant. -/
theorem store_file_good (s : ServerState) (b : Bytes) (fn mt : String)
    (now : Nat) (fid : String) (hgood : GoodState s)
    (hfresh : lookupL s.ledger fid = none)
    (hname : ∀ p ∈ s.ledger, p.2.stored_filename ≠ fid ++ pathSuffix fn) :
    GoodState (store_file s b fn mt now fid).1 := by
  obtain ⟨h1, h2, h3⟩ := hgood
  refine ⟨?_, ?_, ?_⟩
  · rw [store_file_ledger, insertL_of_none _ _ _ hfresh, List.map_append]
    rw [List.nodup_append]
    refine ⟨h1, List.nodup_singleton _, ?_⟩
    intro a ha hb
    simp only [List.map_singleton, List.mem_singleton] at hb
    subst hb
    exact (lookupL_none_iff _ _).mp hfresh ha
  · rw [store_file_ledger, insertL_of_none _ _ _ hfresh, List.map_append]
    rw [List.nodup_append]
    refine ⟨h2, List.nodup_singleton _, ?_⟩
    intro a ha hb
    rw [List.map_singleton, List.mem_singleton] at hb
    subst hb
    obtain ⟨p, hp, hpe⟩ := List.mem_map.mp ha
    exact hname p hp hpe
  · rw [store_file_disk]
    cases hv : lookupL s.disk (fid ++ pathSuffix fn) with
    | some v => rw [map_fst_insertL_of_some _ _ _ _ hv]; exact h3
    | none =>
      rw [insertL_of_none _ _ _ hv, List.map_append, List.nodup_append]
      refine ⟨h3, List.nodup_singleton _, ?_⟩
      intro a ha hb
      simp only [List.map_singleton, List.mem_singleton] at hb
      subst hb
      exact (lookupL_none_iff _ _).mp hv ha

/-- Claim C2 (confirmed).  After `store(b, name, mime)` under a fresh id,
the returned descriptor's `size` equals `len(b)`, `resolve` returns the
descriptor, and `open` yields exactly `b`; both survive any sweep at a time
that has not passed the descriptor's `expires_at`, and any further store
under a different id and stored name.  (`resolve`/`open` themselves are
modelled as pure functions — they take no time argument and mutate
nothing.) -/
theorem C2_store_resolve_open
    (s : ServerState) (b : Bytes) (fn mt : String) (now : Nat) (fid : String)
    (hgood : GoodState s)
    (hfresh : lookupL s.ledger fid = none)
    (hname : ∀ p ∈ s.ledger, p.2.stored_filename ≠ fid ++ pathSuffix fn) :
    (store_file s b fn mt now fid).2.size = b.length ∧
    get_file_metadata (store_file s b fn mt now fid).1 fid =
      some (store_file s b fn mt now fid).2 ∧
    openFile (store_file s b fn mt now fid).1 fid = some b ∧
    (∀ now', ¬ (store_file s b fn mt now fid).2.expires_at < now' →
      get_file_metadata
          (cleanup_expired_files now' (store_file s b fn mt now fid).1) fid =
        some (store_file s b fn mt now fid).2 ∧
      openFile
          (cleanup_expired_files now' (store_file s b fn mt now fid).1) fid =
        some b) ∧
    (∀ b' fn' mt' now' fid', fid' ≠ fid →
      fid' ++ pathSuffix fn' ≠ fid ++ pathSuffix fn →
      get_file_metadata
          (store_file (store_file s b fn mt now fid).1 b' fn' mt' now'
            fid').1 fid = some (store_file s b fn mt now fid).2 ∧
      openFile (store_file (store_file s b fn mt now fid).1 b' fn' mt' now'
            fid').1 fid = some b) := by
  have hgood' := store_file_good s b fn mt now fid hgood hfresh hname
  have h2 : get_file_metadata (store_file s b fn mt now fid).1 fid =
      some (store_file s b fn mt now fid).2 := by
    unfold get_file_metadata
    rw [store_file_ledger]
    exact lookupL_insertL_self _ _ _
  have hdl : lookupL (store_file s b fn mt now fid).1.disk
      (store_file s b fn mt now fid).2.stored_filename = some b := by
    rw [store_file_disk]
    show lookupL (insertL s.disk (fid ++ pathSuffix fn) b)
      (fid ++ pathSuffix fn) = some b
    exact lookupL_insertL_self _ _ _
  have h3 : openFile (store_file s b fn mt now fid).1 fid = some b :=
    openFile_eq _ _ _ _ h2 hdl
  refine ⟨rfl, h2, h3, ?_, ?_⟩
  · intro now' hexp'
    have hres : get_file_metadata
        (cleanup_expired_files now' (store_file s b fn mt now fid).1) fid =
        some (store_file s b fn mt now fid).2 := by
      unfold get_file_metadata
      rw [cleanup_ledger_lookup _ _ _ hgood'.1]
      unfold get_file_metadata at h2
      rw [h2]
      show (if (store_file s b fn mt now fid).2.expires_at < now' then none
        else some (store_file s b fn mt now fid).2) = _
      rw [if_neg hexp']
    refine ⟨hres, ?_⟩
    have hdisk' : lookupL
        (cleanup_expired_files now' (store_file s b fn mt now fid).1).disk
        (store_file s b fn mt now fid).2.stored_filename = some b := by
      rw [cleanup_disk_pres _ _ _ hgood'.1 ?_]
      · exact hdl
      · intro f mf hlf hexpf
        by_cases hf : f = fid
        · subst hf
          unfold get_file_metadata at h2
          rw [h2] at hlf
          injection hlf with hlf'
          subst hlf'
          exact absurd hexpf hexp'
        · rw [store_file_ledger,
            lookupL_insertL_ne _ _ _ _ hf] at hlf
          have hmem := lookupL_mem _ _ _ hlf
          intro hsn
          exact hname (f, mf) hmem hsn
    exact openFile_eq _ _ _ _ hres hdisk'
  · intro b' fn' mt' now' fid' hne hnames
    have hres : get_file_metadata
        (store_file (store_file s b fn mt now fid).1 b' fn' mt' now'
          fid').1 fid = some (store_file s b fn mt now fid).2 := by
      unfold get_file_metadata
      rw [store_file_ledger, lookupL_insertL_ne _ _ _ _ (fun he => hne he.symm)]
      exact h2
    refine ⟨hres, ?_⟩
    have hdisk' : lookupL
        (store_file (store_file s b fn mt now fid).1 b' fn' mt' now'
          fid').1.disk
        (store_file s b fn mt now fid).2.stored_filename = some b := by
      rw [store_file_disk]
      rw [lookupL_insertL_ne _ _ _ _ ?_]
      · exact hdl
      · show (store_file s b fn mt now fid).2.stored_filename ≠
          fid' ++ pathSuffix fn'
        exact fun he => hnames (he.symm.trans rfl)
    exact openFile_eq _ _ _ _ hres hdisk'

/-- Witness for `C2_store_resolve_open`: storing one byte in the empty
state and reading it back. -/
theorem C2_witness :
    (store_file emptyState [37] "a.pdf" "application/pdf" 0 "id0").2.size = 1 ∧
    openFile (store_file emptyState [37] "a.pdf" "application/pdf" 0
      "id0").1 "id0" = some [37] := by
  have h := C2_store_resolve_open emptyState [37] "a.pdf" "application/pdf"
    0 "id0" ⟨by simp [emptyState], by simp [emptyState], by simp [emptyState]⟩
    (by rfl) (by simp [emptyState])
  exact ⟨h.1, h.2.2.1⟩

/-- Claim C3, as stated, is false on the boundary: the sweep of
server.py line 146 removes entries with `now > expires_at` (strictly), not
`expires_at <= now`.  At `now = 86400` an entry with `expires_at = 86400`
(so `expires_at <= now`) survives the sweep with its backing bytes, though
the claim demands its removal. -/
theorem C3_counterexample :
    exMeta1.expires_at ≤ 86400 ∧
    lookupL (cleanup_expired_files 86400 exState1).ledger "e1" =
      some exMeta1 ∧
    lookupL (cleanup_expired_files 86400 exState1).disk "e1.pdf" =
      some [37] := by
  refine ⟨by decide, by decide, by decide⟩

/-- Claim C3 (corrected): `sweep(now)` removes exactly the ledger entries
with `expires_at < now` (strictly — `now > expires_at` in the source); for
each removed entry it deletes the backing bytes (the conjunct holds with no
assumption that the backing file exists, so an already-gone file is
tolerated), and it persists the ledger once for the whole batch — exactly
once when anything was removed and not at all otherwise — with the
side-file then holding the swept ledger. -/
theorem C3_sweep_exact (now : Nat) (s : ServerState)
    (hnd : (s.ledger.map Prod.fst).Nodup)
    (hdisk : (s.disk.map Prod.fst).Nodup) :
    (∀ fid, lookupL (cleanup_expired_files now s).ledger fid =
      (lookupL s.ledger fid).bind
        (fun m => if m.expires_at < now then none else some m)) ∧
    (∀ fid m, lookupL s.ledger fid = some m → m.expires_at < now →
      lookupL (cleanup_expired_files now s).disk m.stored_filename = none) ∧
    (cleanup_expired_files now s).saves = s.saves +
      (if s.ledger.filter (fun p => p.2.expires_at < now) = [] then 0
       else 1) ∧
    (s.ledger.filter (fun p => p.2.expires_at < now) ≠ [] →
      (cleanup_expired_files now s).sideFile =
        some (.jsonDoc (ledgerToJson (cleanup_expired_files now s).ledger))) :=
  ⟨fun fid => cleanup_ledger_lookup now s fid hnd,
   fun fid m hm hexp => cleanup_disk_expired now s fid m hnd hdisk hm hexp,
   cleanup_saves_eq now s,
   fun h => cleanup_sideFile_eq now s h⟩

/-- Witness for `C3_sweep_exact`: at `now = 86401` the sample entry is
strictly expired, so the sweep drops it, deletes its bytes, and persists
once. -/
theorem C3_witness :
    lookupL (cleanup_expired_files 86401 exState1).ledger "e1" = none ∧
    lookupL (cleanup_expired_files 86401 exState1).disk "e1.pdf" = none ∧
    (cleanup_expired_files 86401 exState1).saves = 1 := by
  have h := C3_sweep_exact 86401 exState1 (by decide) (by decide)
  refine ⟨?_, ?_, ?_⟩
  · rw [h.1 "e1"]
    decide
  · exact h.2.1 "e1" exMeta1 (by decide) (by decide)
  · rw [h.2.2.1]
    decide

/-- Claim C4 (confirmed): after `sweep(now)`, every descriptor with
`now > expires_at` resolves to nothing and its backing bytes are gone from
disk, while every descriptor with `expires_at > now` keeps both its ledger
entry and its backing bytes unchanged.  `hid` records the reachable-state
fact that each ledger entry is keyed by its descriptor's id. -/
theorem C4_sweep_frame (now : Nat) (s : ServerState)
    (hgood : GoodState s)
    (hid : ∀ p ∈ s.ledger, p.2.id = p.1) :
    (∀ fid m, lookupL s.ledger fid = some m → m.expires_at < now →
      get_file_metadata (cleanup_expired_files now s) m.id = none ∧
      lookupL (cleanup_expired_files now s).disk m.stored_filename = none) ∧
    (∀ fid m, lookupL s.ledger fid = some m → now < m.expires_at →
      lookupL (cleanup_expired_files now s).ledger fid = some m ∧
      lookupL (cleanup_expired_files now s).disk m.stored_filename =
        lookupL s.disk m.stored_filename) := by
  obtain ⟨h1, h2, h3⟩ := hgood
  constructor
  · intro fid m hm hexp
    have hidm : m.id = fid := hid (fid, m) (lookupL_mem _ _ _ hm)
    constructor
    · unfold get_file_metadata
      rw [hidm, cleanup_ledger_lookup _ _ _ h1, hm]
      show (if m.expires_at < now then none else some m) = none
      rw [if_pos hexp]
    · exact cleanup_disk_expired now s fid m h1 h3 hm hexp
  · intro fid m hm hexp
    constructor
    · rw [cleanup_ledger_lookup _ _ _ h1, hm]
      show (if m.expires_at < now then none else some m) = some m
      rw [if_neg (by omega)]
    · refine cleanup_disk_pres now s _ h1 ?_
      intro f mf hlf hexpf hsn
      have hmem1 := lookupL_mem _ _ _ hlf
      have hmem2 := lookupL_mem _ _ _ hm
      have heq := nodup_map_inj s.ledger (fun p => p.2.stored_filename) h2
        (f, mf) (fid, m) hmem1 hmem2 hsn
      injection heq with he1 he2
      subst he2
      omega

/-- Witness for `C4_sweep_frame`: sweeping the sample state strictly after
its expiry removes both the entry and the bytes. -/
theorem C4_witness :
    get_file_metadata (cleanup_expired_files 86401 exState1) "e1" = none ∧
    lookupL (cleanup_expired_files 86401 exState1).disk "e1.pdf" = none := by
  have h := (C4_sweep_frame 86401 exState1
    ⟨by decide, by decide, by decide⟩ (by decide)).1 "e1" exMeta1
    (by decide) (by decide)
  exact ⟨h.1, h.2⟩

/-- Claim C5, as stated, is false on the code: `store_file` contains no
collision check whatsoever (and no `StoreCollisionError` exists anywhere in
the source).  Storing with the already-used id `e1` silently overwrites
both the backing bytes (`e1.pdf` now holds the new content) and the ledger
entry, and returns a normal descriptor instead of failing. -/
theorem C5_counterexample :
    (store_file exState1 [9, 9] "x.pdf" "m" 0 "e1").2.id = "e1" ∧
    lookupL (store_file exState1 [9, 9] "x.pdf" "m" 0 "e1").1.disk
      "e1.pdf" = some [9, 9] ∧
    lookupL (store_file exState1 [9, 9] "x.pdf" "m" 0 "e1").1.ledger
      "e1" ≠ some exMeta1 := by
  refine ⟨rfl, by decide, by decide⟩

/-- Claim C5 (corrected): on a stored-name collision `store_file` does not
fail — it has no collision handling at all and unconditionally overwrites:
after any store, the disk holds the new bytes under the stored name and the
ledger maps the id to the new descriptor, regardless of what was there
before. -/
theorem C5_store_overwrites (s : ServerState) (b : Bytes) (fn mt : String)
    (now : Nat) (fid : String) :
    lookupL (store_file s b fn mt now fid).1.disk
      (store_file s b fn mt now fid).2.stored_filename = some b ∧
    get_file_metadata (store_file s b fn mt now fid).1 fid =
      some (store_file s b fn mt now fid).2 := by
  constructor
  · rw [store_file_disk]
    show lookupL (insertL s.disk (fid ++ pathSuffix fn) b)
      (fid ++ pathSuffix fn) = some b
    exact lookupL_insertL_self _ _ _
  · unfold get_file_metadata
    rw [store_file_ledger]
    exact lookupL_insertL_self _ _ _

/-- Claim C6 (confirmed): the download endpoint is gated purely on ledger
presence and backing-file existence.  `endpoint_download_file` takes no
time argument at all, so it never compares `now` with `expires_at`; in
particular, for any `now` strictly past the descriptor's expiry
(hypothesis `hexp`), the download still succeeds with the stored bytes. -/
theorem C6_download_ignores_expiry (s : ServerState) (fid rfn : String)
    (m : Meta) (b : Bytes) (now : Nat)
    (hm : get_file_metadata s fid = some m)
    (hb : lookupL s.disk m.stored_filename = some b)
    (hexp : m.expires_at < now) :
    endpoint_download_file s fid rfn =
      .fileResponse b m.original_filename m.mime_type := by
  have hp : get_file_path s fid = some m.stored_filename := by
    unfold get_file_path
    rw [hm]
    show (if containsL s.disk m.stored_filename then some m.stored_filename
      else none) = some m.stored_filename
    unfold containsL
    rw [hb]
    rfl
  unfold endpoint_download_file
  rw [hm]
  show (match get_file_path s fid with
    | none => DownloadResult.notFoundFile
    | some path => DownloadResult.fileResponse ((lookupL s.disk path).getD [])
        m.original_filename m.mime_type) = _
  rw [hp]
  show DownloadResult.fileResponse ((lookupL s.disk m.stored_filename).getD [])
      m.original_filename m.mime_type = _
  rw [hb]
  rfl

/-- Witness for `C6_download_ignores_expiry`: the sample entry is fetched
successfully at `now = 86401`, strictly after its expiry. -/
theorem C6_witness :
    endpoint_download_file exState1 "e1" "whatever.pdf" =
      .fileResponse [37] "a.pdf" "application/pdf" :=
  C6_download_ignores_expiry exState1 "e1" "whatever.pdf" exMeta1 [37] 86401
    (by decide) (by decide) (by decide)

/-- Claim C7 (confirmed): every descriptor produced by `store_file` has
`expires_at = created_at + TTL` (24 hours) with `created_at < expires_at`,
and no subsequent operation mutates it while it exists: `resolve` and
`open` are pure reads (they are modelled as functions that return values
without touching the state), a sweep either removes the entry or leaves the
descriptor identical, and stores of other ids leave it identical. -/
theorem C7_expiry_invariant (s : ServerState) (b : Bytes) (fn mt : String)
    (now : Nat) (fid : String)
    (hnd : (s.ledger.map Prod.fst).Nodup)
    (hfresh : lookupL s.ledger fid = none) :
    (store_file s b fn mt now fid).2.expires_at =
      (store_file s b fn mt now fid).2.created_at + TTL_SECONDS ∧
    (store_file s b fn mt now fid).2.created_at <
      (store_file s b fn mt now fid).2.expires_at ∧
    (∀ now' m', get_file_metadata
        (cleanup_expired_files now' (store_file s b fn mt now fid).1) fid =
      some m' → m' = (store_file s b fn mt now fid).2) ∧
    (∀ b' fn' mt' now' fid', fid' ≠ fid →
      get_file_metadata (store_file (store_file s b fn mt now fid).1 b' fn'
        mt' now' fid').1 fid = some (store_file s b fn mt now fid).2) := by
  have hl : lookupL (store_file s b fn mt now fid).1.ledger fid =
      some (store_file s b fn mt now fid).2 := by
    rw [store_file_ledger]
    exact lookupL_insertL_self _ _ _
  have hnd' : ((store_file s b fn mt now fid).1.ledger.map Prod.fst).Nodup := by
    rw [store_file_ledger, insertL_of_none _ _ _ hfresh, List.map_append]
    rw [List.nodup_append]
    refine ⟨hnd, List.nodup_singleton _, ?_⟩
    intro a ha hbm
    simp only [List.map_singleton, List.mem_singleton] at hbm
    subst hbm
    exact (lookupL_none_iff _ _).mp hfresh ha
  refine ⟨rfl, ?_, ?_, ?_⟩
  · show now < now + TTL_SECONDS
    unfold TTL_SECONDS
    omega
  · intro now' m' h
    unfold get_file_metadata at h
    rw [cleanup_ledger_lookup _ _ _ hnd', hl] at h
    have hcases : (some (store_file s b fn mt now fid).2).bind
        (fun m => if m.expires_at < now' then none else some m) =
        (if (store_file s b fn mt now fid).2.expires_at < now' then none
         else some (store_file s b fn mt now fid).2) := rfl
    rw [hcases] at h
    by_cases hexp : (store_file s b fn mt now fid).2.expires_at < now'
    · rw [if_pos hexp] at h
      exact Option.noConfusion h
    · rw [if_neg hexp] at h
      injection h with h'
      exact h'.symm
  · intro b' fn' mt' now' fid' hne
    unfold get_file_metadata
    rw [store_file_ledger, lookupL_insertL_ne _ _ _ _ (fun he => hne he.symm)]
    exact hl

/-- Witness for `C7_expiry_invariant`: a store at time 5 in the empty
state expires at `5 + 86400`. -/
theorem C7_witness :
    (store_file emptyState [37] "a.pdf" "application/pdf" 5 "id0").2.expires_at
      = (store_file emptyState [37] "a.pdf" "application/pdf" 5
          "id0").2.created_at + TTL_SECONDS ∧
    (store_file emptyState [37] "a.pdf" "application/pdf" 5 "id0").2.created_at
      < (store_file emptyState [37] "a.pdf" "application/pdf" 5
          "id0").2.expires_at := by
  have h := C7_expiry_invariant emptyState [37] "a.pdf" "application/pdf" 5
    "id0" (by decide) (by decide)
  exact ⟨h.1, h.2.1⟩

/-- Reading a serialized descriptor back yields the descriptor. -/
theorem jsonToMeta_metaToJson (m : Meta) :
    jsonToMeta (metaToJson m) = some m := rfl

/-- Reading a serialized ledger back yields the ledger. -/
theorem jsonToLedger_ledgerToJson (l : List (String × Meta)) :
    jsonToLedger (ledgerToJson l) = some l := by
  induction l with
  | nil => rfl
  | cons p rest ih =>
    have ih' : List.foldr
        (fun q acc =>
          match jsonToMeta q.2, acc with
          | some m, some l => some ((q.1, m) :: l)
          | _, _ => none)
        (some []) (rest.map (fun q => (q.1, metaToJson q.2))) = some rest := ih
    show List.foldr
        (fun q acc =>
          match jsonToMeta q.2, acc with
          | some m, some l => some ((q.1, m) :: l)
          | _, _ => none)
        (some []) ((p :: rest).map (fun q => (q.1, metaToJson q.2))) =
      some (p :: rest)
    rw [List.map_cons, List.foldr_cons, ih']
    show (match jsonToMeta (metaToJson p.2), some rest with
      | some m, some l => some ((p.1, m) :: l)
      | _, _ => none) = some (p :: rest)
    rw [jsonToMeta_metaToJson]

/-- Claim C8 (confirmed): persisting any ledger with `save_metadata` and
loading the side-file back with `load_metadata` yields exactly the same
descriptors, every field identical (timestamps included — in the model the
persisted timestamp value is recovered exactly, matching the byte-for-byte
preservation of the ISO strings in the source). -/
theorem C8_persist_load_round_trip (s : ServerState) :
    load_metadata (save_metadata s).sideFile = s.ledger := by
  show (jsonToLedger (ledgerToJson s.ledger)).getD [] = s.ledger
  rw [jsonToLedger_ledgerToJson]
  rfl

/-- Claim C9 (confirmed): `load_metadata` on a missing side-file yields the
empty ledger, and on a side-file whose contents fail to parse as JSON the
bare `except` of server.py lines 56-57 yields the empty ledger; neither
raises (both are total equations). -/
theorem C9_load_tolerates_corruption :
    load_metadata none = [] ∧ load_metadata (some .invalid) = [] :=
  ⟨rfl, rfl⟩

/-- The components of `goodChar`, unpacked. -/
theorem goodChar_spec (c : Char) (h : goodChar c = true) :
    keepChar c = true ∧ c ≠ '<' ∧ c ≠ ':' ∧ c ≠ ',' ∧ asciiLower c ≠ '-' ∧
    isPySpace c = false := by
  simp only [goodChar, Bool.and_eq_true, Bool.not_eq_true',
    beq_eq_false_iff_ne, ne_eq] at h
  exact ⟨h.1.1.1.1.1, h.1.1.1.1.2, h.1.1.1.2, h.1.1.2, h.1.2, h.2⟩

/-- No character appears in a list all of whose members differ from it. -/
theorem memB_eq_false (c : Char) (t : List Char) (h : ∀ x ∈ t, x ≠ c) :
    memB c t = false := by
  induction t with
  | nil => rfl
  | cons d rest ih =>
    show (d == c || memB c rest) = false
    rw [ih (fun x hx => h x (List.mem_cons_of_mem _ hx)), Bool.or_false]
    exact beq_eq_false_iff_ne.mpr (h d (List.mem_cons_self _ _))

/-- A successful `clean_base64` implies the decoded bytes carry the PDF
magic. -/
theorem clean_base64_ok_magic (t : List Char) (d : Bytes)
    (h : clean_base64 t = .ok d) : d.take 4 = pdfMagic := by
  unfold clean_base64 at h
  by_cases h0 : t = []
  · rw [if_pos h0] at h
    exact Except.noConfusion h
  · rw [if_neg h0] at h
    by_cases h1 : t.head? = some '<' ∨
        containsSub placeholderMark (t.map asciiLower) = true
    · rw [if_pos h1] at h
      exact Except.noConfusion h
    · rw [if_neg h1] at h
      cases hd : b64decodePy (padB64 (filterB64 (removeWS (stripDataUrl t))))
        with
      | error e =>
        rw [hd] at h
        exact Except.noConfusion h
      | ok dec =>
        rw [hd] at h
        have h' : (if dec.take 4 = pdfMagic then Except.ok dec
            else Except.error "Keine gueltigen PDF-Daten") = Except.ok d := h
        by_cases hmg : dec.take 4 = pdfMagic
        · rw [if_pos hmg] at h'
          injection h' with h2
          exact h2 ▸ hmg
        · rw [if_neg hmg] at h'
          exact Except.noConfusion h'

/-- A nonempty byte list has a nonempty base64 encoding. -/
theorem b64encode_ne_nil (d : Bytes) (h : d ≠ []) : b64encode d ≠ [] := by
  match d with
  | [] => exact absurd rfl h
  | [a] => simp [b64encode]
  | [a, b] => simp [b64encode]
  | a :: b :: c :: rest => simp [b64encode]

/-- Decoding the exact base64 encoding of bytes that do not start with the
PDF magic fails inside `clean_base64` (at the magic check, or at the
empty-input check for no bytes at all). -/
theorem clean_base64_encode_nonpdf (d : Bytes) (hd : ∀ x ∈ d, x < 256)
    (hm : ¬ d.take 4 = pdfMagic) :
    ∃ e, clean_base64 (b64encode d) = .error e := by
  by_cases h0 : d = []
  · subst h0
    exact ⟨"Leerer Base64-String", rfl⟩
  · have hgood := b64encode_good d
    have hne := b64encode_ne_nil d h0
    have hhd : ¬ (b64encode d).head? = some '<' := by
      cases he : b64encode d with
      | nil => simp
      | cons c cs =>
        intro hcon
        injection hcon with hc
        have hmem : c ∈ b64encode d := by
          rw [he]
          exact List.mem_cons_self _ _
        exact (goodChar_spec c (hgood c hmem)).2.1 hc
    have hmk : containsSub placeholderMark
        ((b64encode d).map asciiLower) = false := by
      refine containsSub_false_of _ _ '-' (by decide) ?_
      refine memB_eq_false _ _ ?_
      intro x hx
      obtain ⟨y, hy, rfl⟩ := List.mem_map.mp hx
      exact (goodChar_spec y (hgood y hy)).2.2.2.2.1
    have hstrip : stripDataUrl (b64encode d) = b64encode d := by
      unfold stripDataUrl
      have hcm : memB ',' (b64encode d) = false := by
        refine memB_eq_false _ _ ?_
        intro x hx
        exact (goodChar_spec x (hgood x hx)).2.2.2.1
      rw [hcm, Bool.false_and]
      simp
    have hfil : filterB64 (removeWS (b64encode d)) = b64encode d := by
      rw [filterB64_removeWS]
      refine List.filter_eq_self.mpr ?_
      intro a ha
      exact (goodChar_spec a (hgood a ha)).1
    have hpad : padB64 (b64encode d) = b64encode d := by
      unfold padB64
      rw [if_pos (b64encode_len_mod4 d)]
    refine ⟨"Keine gueltigen PDF-Daten", ?_⟩
    unfold clean_base64
    rw [if_neg hne]
    rw [if_neg (show ¬ ((b64encode d).head? = some '<' ∨
        containsSub placeholderMark ((b64encode d).map asciiLower) = true)
      from by
        rintro (h | h)
        · exact hhd h
        · rw [hmk] at h
          exact Bool.noConfusion h)]
    rw [hstrip, hfil, hpad, b64decode_encode d hd]
    show (if d.take 4 = pdfMagic then Except.ok d
      else Except.error "Keine gueltigen PDF-Daten") = _
    rw [if_neg hm]

/-- Claim C10 (confirmed): `tool_upload_file` — whatever the declared
`mime_type` — returns a success result only when the decoded bytes begin
with the 4-byte PDF magic `%PDF` (first conjunct: success implies
`clean_base64` succeeded, and every `clean_base64` success carries the
magic); and for the valid base64 encoding of any byte sequence not
beginning with `%PDF`, it returns a structured failure (`success = false`)
and leaves the whole state — ledger, blob storage, side-file — untouched
(second conjunct: the state is returned unchanged). -/
theorem C10_upload_pdf_gate :
    (∀ (s : ServerState) (t : List Char) (fn mt : String) (now : Nat)
      (fid : String),
      (tool_upload_file s t fn mt now fid).2.success = true →
        ∃ d, clean_base64 t = .ok d ∧ d.take 4 = pdfMagic) ∧
    (∀ (s : ServerState) (d : Bytes) (fn mt : String) (now : Nat)
      (fid : String), (∀ x ∈ d, x < 256) → ¬ d.take 4 = pdfMagic →
      (tool_upload_file s (b64encode d) fn mt now fid).1 = s ∧
      (tool_upload_file s (b64encode d) fn mt now fid).2.success = false) := by
  constructor
  · intro s t fn mt now fid hsucc
    unfold tool_upload_file at hsucc
    cases hc : clean_base64 t with
    | error e =>
      rw [hc] at hsucc
      exact Bool.noConfusion hsucc
    | ok d => exact ⟨d, rfl, clean_base64_ok_magic t d hc⟩
  · intro s d fn mt now fid hd hm
    obtain ⟨e, he⟩ := clean_base64_encode_nonpdf d hd hm
    unfold tool_upload_file
    rw [he]
    exact ⟨rfl, rfl⟩

/-- Witness for `C10_upload_pdf_gate`: uploading the valid base64 encoding
of the non-PDF bytes `[1, 2, 3]` fails as a structured result and leaves
the empty state untouched. -/
theorem C10_witness :
    (tool_upload_file emptyState (b64encode [1, 2, 3]) "f.bin"
      "application/octet-stream" 0 "id0").1 = emptyState ∧
    (tool_upload_file emptyState (b64encode [1, 2, 3]) "f.bin"
      "application/octet-stream" 0 "id0").2.success = false :=
  C10_upload_pdf_gate.2 emptyState [1, 2, 3] "f.bin"
    "application/octet-stream" 0 "id0" (by decide) (by decide)

/-- The concrete decoder scenario of the specification:
`decode("data:application/pdf;base64,  JVBERi0xLjQK  ")` strips the prefix
and whitespace and decodes to the bytes of `%PDF-1.4\n`. -/
theorem clean_base64_spec_scenario :
    clean_base64 "data:application/pdf;base64,  JVBERi0xLjQK  ".data =
      .ok [37, 80, 68, 70, 45, 49, 46, 52, 10] := by rfl
